import Mathlib

/-!
Shallow embedding of the timed acquisition engine in `src/streamlit_app.py`
(goldcc-booking).

Conventions of the embedding:
* Python strings are modelled as `List Char`; Python's `\d` / `str.isdigit`
  checks are modelled over the ASCII digit range via `Char.isDigit`, and
  `str.strip` over the ASCII whitespace characters, which is faithful for
  every value the program feeds these helpers (times typed in the UI and
  `BK_TIME` fields from the remote calendar API).
* Remote HTTP calls are replaced by oracles: slot discovery receives the
  per-partition result lists, the open-signal poll receives the outcome of
  each calendar query, and the acquisition path receives a function from
  (candidate index, attempt index) to the remote response.
* Wall-clock reads (`datetime.now`, `time.monotonic`) are replaced by a
  sequence `Nat → ℚ` giving the value read on each loop iteration, and the
  unbounded `while` loops take an explicit fuel, returning `none` when the
  fuel is insufficient.
* The `threading.Event` cancellation flag is a boolean oracle; for the
  straight-line booking code (where a run either was stopped before it or
  not) it is a single `Bool`, for the polling loops a `Nat → Bool` sampled
  once per iteration.
-/

namespace GoldCC

/-- Whitespace recognised by Python `str.strip` (ASCII range). -/
def isPySpace (c : Char) : Bool :=
  c = ' ' || c = '\t' || c = '\n' || c = '\r' || c = '\x0b' || c = '\x0c'

/-- Python `s.strip()`: drop leading and trailing whitespace. -/
def pyStrip (s : List Char) : List Char :=
  ((s.dropWhile isPySpace).reverse.dropWhile isPySpace).reverse

/-- Python `s.replace(":", "")`: delete every colon. -/
def removeColons (s : List Char) : List Char :=
  s.filter (fun c => c ≠ ':')

/-- The intermediate value `time_str.strip().replace(":", "")` of
`format_time_for_api`. -/
def prepTime (time_str : List Char) : List Char :=
  removeColons (pyStrip time_str)

/-- Embedding of `format_time_for_api` (streamlit_app.py lines 57-66):
strip, delete colons, then pass 4-digit strings through, left-pad 3-digit
strings with a zero, and fall back to `"0000"` for everything else.  (The
`re.match` + `isdigit` test is "all digits and length 3 or 4".) -/
def format_time_for_api (time_str : List Char) : List Char :=
  if (prepTime time_str).all Char.isDigit &&
      ((prepTime time_str).length = 3 || (prepTime time_str).length = 4) then
    if (prepTime time_str).length = 4 then prepTime time_str
    else '0' :: prepTime time_str
  else ['0', '0', '0', '0']

/-- Python lexicographic string `<=` by code point, on `List Char`. -/
def charListLe : List Char → List Char → Bool
  | [], _ => true
  | _ :: _, [] => false
  | a :: as, b :: bs =>
    if a < b then true
    else if b < a then false
    else charListLe as bs

/-- Numeric value of one ASCII digit character. -/
def digitVal (c : Char) : Nat := c.toNat - '0'.toNat

/-- Accumulator form of Python `int` on a digit string. -/
def digitsToNatAux (cs : List Char) (acc : Nat) : Nat :=
  match cs with
  | [] => acc
  | c :: cs => digitsToNatAux cs (acc * 10 + digitVal c)

/-- Python `int(s)` on a (non-negative, all-digit) string. -/
def digitsToNat (s : List Char) : Nat := digitsToNatAux s 0

/-- One discovered tee-time slot: the tuple
`(BK_TIME, BK_COS, BK_PART, course display name, coDiv)` built by
`_fetch_tee_list` (streamlit_app.py line 384). -/
structure Slot where
  time : List Char
  cos : List Char
  part : List Char
  courseNm : List Char
  coDiv : List Char
deriving DecidableEq, Repr

/-- The `course_map` dictionary of `filter_and_sort_times`
(streamlit_app.py lines 399-404), with the `.get(_, [])` default. -/
def course_map (target_courses : List Char) : List (List Char) :=
  if target_courses = ['A', 'l', 'l'] then [['A'], ['B'], ['C'], ['D']]
  else if target_courses = ['참', '피', '온'] then [['A'], ['B']]
  else if target_courses = ['마', '스', '타'] then [['C'], ['D']]
  else []

/-- The filter condition of the loop at streamlit_app.py lines 407-411:
`start_time_entry <= time_val <= end_time_entry and cos_val in codes`,
where the bounds are already formatted. -/
def keepSlot (start_time_entry end_time_entry : List Char)
    (codes : List (List Char)) (t : Slot) : Bool :=
  charListLe start_time_entry (format_time_for_api t.time) &&
  charListLe (format_time_for_api t.time) end_time_entry &&
  codes.contains t.cos

/-- Stable insertion step: `x` goes in front of the first element not
strictly below it, so it lands after every earlier element with an equal
key. -/
def stInsert {α : Type} (lt : α → α → Bool) (x : α) : List α → List α
  | [] => [x]
  | y :: ys => if lt y x then y :: stInsert lt x ys else x :: y :: ys

/-- Stable sort by a strict comparison, modelling Python `list.sort`
(Timsort is stable; any two stable sorts of the same list by the same key
agree, so insertion sort is an exact model). -/
def sortBy {α : Type} (lt : α → α → Bool) : List α → List α
  | [] => []
  | x :: xs => stInsert lt x (sortBy lt xs)

/-- The sort key of `filter_and_sort_times`:
`int(format_time_for_api(x[0]))`. -/
def slotTimeKey (t : Slot) : Nat := digitsToNat (format_time_for_api t.time)

/-- The strict comparison realising `sort(key=..., reverse=is_reverse)`. -/
def slotLt (is_reverse : Bool) (a b : Slot) : Bool :=
  if is_reverse then decide (slotTimeKey b < slotTimeKey a)
  else decide (slotTimeKey a < slotTimeKey b)

/-- Embedding of `filter_and_sort_times` (streamlit_app.py lines 394-427):
format the window bounds, keep slots inside the inclusive window whose
course code is in the requested group, and stable-sort by the integer time
key in the configured direction.  (The trailing log lines of the source
produce no data.) -/
def filter_and_sort_times (all_times : List Slot)
    (start_time_str end_time_str : List Char)
    (target_courses : List Char) (is_reverse : Bool) : List Slot :=
  sortBy (slotLt is_reverse)
    (all_times.filter
      (keepSlot (format_time_for_api start_time_str)
        (format_time_for_api end_time_str) (course_map target_courses)))

/-- The deduplication key `(t[0], t[1], t[2])` used by
`get_all_available_times` (streamlit_app.py line 346). -/
def slotKey (t : Slot) : List Char × List Char × List Char :=
  (t.time, t.cos, t.part)

/-- First-occurrence deduplication by `slotKey`, modelling the
`unique_times_map` insertion-ordered dict of streamlit_app.py lines
343-349. -/
def dedupByKey (ts : List Slot)
    (seen : List (List Char × List Char × List Char)) : List Slot :=
  match ts with
  | [] => []
  | t :: ts =>
    if seen.contains (slotKey t) then dedupByKey ts seen
    else t :: dedupByKey ts (slotKey t :: seen)

/-- Embedding of `get_all_available_times` (streamlit_app.py lines
320-351) after the thread pool has produced one result list per course
query: concatenate (`extend`) and deduplicate by `slotKey`, keeping the
first occurrence.  The completion order of the pool is whatever order the
input lists are given in. -/
def get_all_available_times (partitionResults : List (List Slot)) :
    List Slot :=
  dedupByKey (partitionResults.foldl (fun acc ts => acc ++ ts) []) []

/-- A remote response to one `doReservation` POST: either a parsed JSON
body with its `resultCode`, or a transport error
(`requests.RequestException`). -/
inductive ApiResp where
  | ok (resultCode : List Char)
  | netError
deriving DecidableEq, Repr

/-- `data.get('resultCode') == '0000'` — the success test of
`try_reservation` (streamlit_app.py line 458); a transport error is never
a success. -/
def isOkCode : ApiResp → Bool
  | .ok code => code = ['0', '0', '0', '0']
  | .netError => false

/-- The retry loop of `try_reservation` (streamlit_app.py lines 451-470).
`respond a` is the remote answer to the `a`-th attempt.  Returns the
success flag and the attempt indices actually POSTed: stop-checked at the
top of every iteration, return `True` on `resultCode '0000'`, otherwise
(failure code or transport error) retry until `rem` runs out. -/
def try_reservation_aux (stop : Bool) (respond : Nat → ApiResp)
    (rem : Nat) (attempt : Nat) : Bool × List Nat :=
  match rem with
  | 0 => (false, [])
  | rem + 1 =>
    if stop then (false, [])
    else if isOkCode (respond attempt) then (true, [attempt])
    else
      let r := try_reservation_aux stop respond rem (attempt + 1)
      (r.1, attempt :: r.2)

/-- Embedding of `try_reservation` with its `max_retries=3` default. -/
def try_reservation (stop : Bool) (respond : Nat → ApiResp) :
    Bool × List Nat :=
  try_reservation_aux stop respond 3 0

/-- The candidate loop of `run_api_booking` (streamlit_app.py lines
496-517).  `respond i a` is the remote answer to attempt `a` on the `i`-th
ranked candidate.  Returns the success flag together with the full list of
issued acquisition requests as (candidate index, attempt index) pairs. -/
def attempt_candidates (stop : Bool) (respond : Nat → Nat → ApiResp)
    (cands : List Slot) (i : Nat) : Bool × List (Nat × Nat) :=
  match cands with
  | [] => (false, [])
  | _ :: rest =>
    if stop then (false, [])
    else
      let tr := try_reservation stop (respond i)
      let tagged := tr.2.map (fun a => (i, a))
      if tr.1 then (true, tagged)
      else
        let r := attempt_candidates stop respond rest (i + 1)
        (r.1, tagged ++ r.2)

/-- Embedding of `run_api_booking` (streamlit_app.py lines 472-521):
truncate to the first 5 candidates, fail on an empty list, short-circuit
in test mode without issuing any request, otherwise walk the candidates in
order.  The pre-delay sleep and the 5-second post-success settle sleep
change no data and are not modelled. -/
def run_api_booking (stop : Bool) (test_mode : Bool)
    (respond : Nat → Nat → ApiResp)
    (sorted_available_times : List Slot) : Bool × List (Nat × Nat) :=
  let times_to_attempt := sorted_available_times.take 5
  if times_to_attempt.isEmpty then (false, [])
  else if test_mode then (true, [])
  else attempt_candidates stop respond times_to_attempt 0

/-- Exit report of the `wait_until` loop: the iteration index at which the
loop stopped and the number of sleeps executed before that. -/
inductive WaitExit where
  | reached (iter sleeps : Nat)
  | stopped (iter sleeps : Nat)
deriving DecidableEq, Repr

/-- The loop of `wait_until` (streamlit_app.py lines 90-112).  `nowAt n`
is the KST clock value (in seconds) freshly read on iteration `n`; the
remaining duration is recomputed from it every time, never cached.  Break
when at most 1 ms (`0.001` s) remains; otherwise sleep (the adaptive sleep
durations affect only the real-time spacing of the samples `nowAt`, which
the oracle already encodes) and loop. -/
def wait_until_aux (stop : Nat → Bool) (nowAt : Nat → ℚ) (target : ℚ)
    (fuel : Nat) (n : Nat) (sleeps : Nat) : Option WaitExit :=
  match fuel with
  | 0 => none
  | fuel + 1 =>
    if stop n then some (.stopped n sleeps)
    else if target - nowAt n ≤ 1 / 1000 then some (.reached n sleeps)
    else wait_until_aux stop nowAt target fuel (n + 1) (sleeps + 1)

/-- Embedding of `wait_until` from its entry point. -/
def wait_until (stop : Nat → Bool) (nowAt : Nat → ℚ) (target : ℚ)
    (fuel : Nat) : Option WaitExit :=
  wait_until_aux stop nowAt target fuel 0 0

/-- Outcome of one `check_booking_open_by_calendar` call as seen by the
watch loop: a positive signal, a negative answer (including the
`requests.RequestException` path inside the callee, which returns
`False`), or an exception escaping the call (e.g. a JSON parse error),
caught by the `except Exception: pass` of the watcher. -/
inductive CheckOutcome where
  | opened
  | closed
  | error
deriving DecidableEq, Repr

/-- `MAX_WAIT_SECONDS = 420` of `wait_for_open_signal`. -/
def MAX_WAIT_SECONDS : ℚ := 420

/-- The loop of `wait_for_open_signal` (streamlit_app.py lines 254-273).
`elapsedAt n` is `time.monotonic() - start_time` as read on iteration `n`;
`check n` the outcome of that iteration's calendar query.  Order as in the
source: stop check, elapsed-time check (strictly greater than the
maximum), then the query; both a negative answer and an escaped exception
fall through to the next iteration. -/
def wait_for_open_signal_aux (stop : Nat → Bool) (elapsedAt : Nat → ℚ)
    (check : Nat → CheckOutcome) (fuel : Nat) (n : Nat) :
    Option (Bool × Nat) :=
  match fuel with
  | 0 => none
  | fuel + 1 =>
    if stop n then some (false, n)
    else if MAX_WAIT_SECONDS < elapsedAt n then some (false, n)
    else
      match check n with
      | .opened => some (true, n)
      | .closed => wait_for_open_signal_aux stop elapsedAt check fuel (n + 1)
      | .error => wait_for_open_signal_aux stop elapsedAt check fuel (n + 1)

/-- Embedding of `wait_for_open_signal` from its entry point, returning
the boolean result paired with the iteration index at which the loop
exited. -/
def wait_for_open_signal (stop : Nat → Bool) (elapsedAt : Nat → ℚ)
    (check : Nat → CheckOutcome) (fuel : Nat) : Option (Bool × Nat) :=
  wait_for_open_signal_aux stop elapsedAt check fuel 0

/-- Collapse an escaped exception to a plain negative answer. -/
def errorAsClosed : CheckOutcome → CheckOutcome
  | .opened => .opened
  | .closed => .closed
  | .error => .closed

/-- Terminal situation of one `start_pre_process` run (after login). -/
inductive Outcome where
  | loginFailed
  | stoppedEarly
  | openSignalFailed
  | bookingResult (success : Bool)
deriving DecidableEq, Repr

/-- Observable trace of one run: whether `wait_for_open_signal` was ever
invoked, which acquisition requests were POSTed, and the terminal
situation. -/
structure RunTrace where
  watchedSignal : Bool
  acquisitionCalls : List (Nat × Nat)
  outcome : Outcome
deriving DecidableEq, Repr

/-- Embedding of the post-login control flow of `start_pre_process`
(streamlit_app.py lines 527-638), with the remote world abstracted:
`loginOk` is the login result, `all_times` the merged discovery result,
`openSignal` the boolean returned by `wait_for_open_signal`, and `respond`
the acquisition oracle.  The clock-gate waits produce no observable data.
Note the source checks candidate emptiness only inside `run_api_booking`,
after the open-signal watch; `wait_for_open_signal` at line 624 is reached
unconditionally once login succeeded and no stop was requested. -/
def start_pre_process (loginOk stop : Bool) (all_times : List Slot)
    (start_time_str end_time_str target_courses : List Char)
    (is_reverse test_mode openSignal : Bool)
    (respond : Nat → Nat → ApiResp) : RunTrace :=
  if loginOk = false then ⟨false, [], .loginFailed⟩
  else
    let sorted_times := filter_and_sort_times all_times start_time_str
      end_time_str target_courses is_reverse
    if stop then ⟨false, [], .stoppedEarly⟩
    else if openSignal = false then ⟨true, [], .openSignalFailed⟩
    else
      let r := run_api_booking stop test_mode respond sorted_times
      ⟨true, r.2, .bookingResult r.1⟩

/-! Arithmetic facts about digit strings: the value of one digit, the
accumulator unfolding of `digitsToNat`, and the agreement of Python's
lexicographic string comparison with numeric comparison on equal-length
digit strings (which is why `filter_and_sort_times` may compare the
formatted `HHMM` strings as strings). -/

theorem digitVal_le_nine (c : Char) (h : c.isDigit = true) : digitVal c ≤ 9 := by
  simp [Char.isDigit] at h
  have h1 : 48 ≤ c.toNat := h.1
  have h2 : c.toNat ≤ 57 := h.2
  have h0 : '0'.toNat = 48 := rfl
  unfold digitVal
  omega

theorem digitVal_lt_of_lt (c d : Char) (hc : c.isDigit = true) (hd : d.isDigit = true)
    (h : c < d) : digitVal c < digitVal d := by
  simp [Char.isDigit] at hc hd
  have hc1 : 48 ≤ c.toNat := hc.1
  have hd1 : 48 ≤ d.toNat := hd.1
  have hlt : c.toNat < d.toNat := h
  have h0 : '0'.toNat = 48 := rfl
  unfold digitVal
  omega

theorem digitsToNatAux_eq (cs : List Char) (acc : Nat) :
    digitsToNatAux cs acc = acc * 10 ^ cs.length + digitsToNatAux cs 0 := by
  induction cs generalizing acc with
  | nil => simp [digitsToNatAux]
  | cons c cs ih =>
    have h1 : digitsToNatAux (c :: cs) acc = digitsToNatAux cs (acc * 10 + digitVal c) := rfl
    have h2 : digitsToNatAux (c :: cs) 0 = digitsToNatAux cs (0 * 10 + digitVal c) := rfl
    rw [h1, h2, ih (acc * 10 + digitVal c), ih (0 * 10 + digitVal c), List.length_cons, pow_succ]
    ring

theorem digitsToNat_cons (c : Char) (cs : List Char) :
    digitsToNat (c :: cs) = digitVal c * 10 ^ cs.length + digitsToNat cs := by
  have h1 : digitsToNat (c :: cs) = digitsToNatAux cs (0 * 10 + digitVal c) := rfl
  rw [h1, digitsToNatAux_eq cs (0 * 10 + digitVal c)]
  norm_num [digitsToNat]

theorem digitsToNat_lt_pow (cs : List Char) (h : cs.all Char.isDigit = true) :
    digitsToNat cs < 10 ^ cs.length := by
  induction cs with
  | nil => simp [digitsToNat, digitsToNatAux]
  | cons c cs ih =>
    simp only [List.all_cons, Bool.and_eq_true] at h
    rw [digitsToNat_cons]
    have h9 := digitVal_le_nine c h.1
    have hr := ih h.2
    calc digitVal c * 10 ^ cs.length + digitsToNat cs
        < digitVal c * 10 ^ cs.length + 10 ^ cs.length := Nat.add_lt_add_left hr _
      _ = (digitVal c + 1) * 10 ^ cs.length := by ring
      _ ≤ 10 * 10 ^ cs.length := Nat.mul_le_mul_right _ (by omega)
      _ = 10 ^ (c :: cs).length := by rw [List.length_cons, pow_succ]; ring

theorem charListLe_iff_digitsToNat_le (a : List Char) :
    ∀ b : List Char, a.length = b.length → a.all Char.isDigit = true →
      b.all Char.isDigit = true →
      (charListLe a b = true ↔ digitsToNat a ≤ digitsToNat b) := by
  induction a with
  | nil =>
    intro b hlen _ _
    cases b with
    | nil => simp [charListLe]
    | cons y ys => simp at hlen
  | cons x xs ih =>
    intro b hlen ha hb
    cases b with
    | nil => simp at hlen
    | cons y ys =>
      simp only [List.all_cons, Bool.and_eq_true] at ha hb
      simp only [List.length_cons, Nat.add_right_cancel_iff] at hlen
      rw [charListLe, digitsToNat_cons, digitsToNat_cons, hlen]
      by_cases hxy : x < y
      · rw [if_pos hxy]
        refine iff_of_true rfl (le_of_lt ?_)
        have hv := digitVal_lt_of_lt x y ha.1 hb.1 hxy
        have hxlt := digitsToNat_lt_pow xs ha.2
        rw [hlen] at hxlt
        calc digitVal x * 10 ^ ys.length + digitsToNat xs
            < digitVal x * 10 ^ ys.length + 10 ^ ys.length := Nat.add_lt_add_left hxlt _
          _ = (digitVal x + 1) * 10 ^ ys.length := by ring
          _ ≤ digitVal y * 10 ^ ys.length := Nat.mul_le_mul_right _ (by omega)
          _ ≤ digitVal y * 10 ^ ys.length + digitsToNat ys := Nat.le_add_right _ _
      · by_cases hyx : y < x
        · rw [if_neg hxy, if_pos hyx]
          have hv := digitVal_lt_of_lt y x hb.1 ha.1 hyx
          have hylt := digitsToNat_lt_pow ys hb.2
          refine iff_of_false (by simp) (not_le.mpr ?_)
          calc digitVal y * 10 ^ ys.length + digitsToNat ys
              < digitVal y * 10 ^ ys.length + 10 ^ ys.length := Nat.add_lt_add_left hylt _
            _ = (digitVal y + 1) * 10 ^ ys.length := by ring
            _ ≤ digitVal x * 10 ^ ys.length := Nat.mul_le_mul_right _ (by omega)
            _ ≤ digitVal x * 10 ^ ys.length + digitsToNat xs := Nat.le_add_right _ _
        · have hxy' : x = y := le_antisymm (not_lt.mp hyx) (not_lt.mp hxy)
          subst hxy'
          rw [if_neg hxy, if_neg hyx, ih ys hlen ha.2 hb.2]
          constructor
          · intro h; exact Nat.add_le_add_left h _
          · intro h; exact Nat.le_of_add_le_add_left h

theorem format_time_for_api_shape (s : List Char) :
    (format_time_for_api s).length = 4 ∧
      (format_time_for_api s).all Char.isDigit = true := by
  unfold format_time_for_api
  split
  next hcond =>
    simp only [Bool.and_eq_true, Bool.or_eq_true, decide_eq_true_eq] at hcond
    obtain ⟨hdig, hlen⟩ := hcond
    split
    next h4 => exact ⟨h4, hdig⟩
    next h4 =>
      have h3 : (prepTime s).length = 3 := by tauto
      refine ⟨by simp [h3], ?_⟩
      simp [List.all_cons, hdig]
  next hcond => exact ⟨by rfl, by decide⟩

/-! Generic facts about the stable insertion sort `sortBy`, used to model
Python `list.sort`. -/

theorem mem_stInsert {α : Type} (lt : α → α → Bool) (x a : α) (l : List α) :
    a ∈ stInsert lt x l ↔ a = x ∨ a ∈ l := by
  induction l with
  | nil => simp [stInsert]
  | cons y ys ih =>
    rw [stInsert]
    split
    · simp only [List.mem_cons, ih]
      tauto
    · simp

theorem mem_sortBy {α : Type} (lt : α → α → Bool) (a : α) (l : List α) :
    a ∈ sortBy lt l ↔ a ∈ l := by
  induction l with
  | nil => simp [sortBy]
  | cons x xs ih =>
    rw [sortBy, mem_stInsert, ih]
    simp

/-- Sortedness in the order realised by `sortBy lt`: no adjacent pair is
strictly out of order. -/
def SortedB {α : Type} (lt : α → α → Bool) (l : List α) : Prop :=
  List.Chain' (fun a b => lt b a = false) l

theorem sortedB_stInsert {α : Type} (lt : α → α → Bool)
    (hasymm : ∀ a b, lt a b = true → lt b a = false) (x : α) (l : List α)
    (h : SortedB lt l) : SortedB lt (stInsert lt x l) := by
  induction l with
  | nil => simp [stInsert, SortedB]
  | cons y ys ih =>
    rw [stInsert]
    split
    next hlt =>
      rw [SortedB, List.chain'_cons']
      refine ⟨?_, ih (List.Chain'.tail h)⟩
      intro z hz
      cases ys with
      | nil =>
        rw [stInsert] at hz
        rw [List.head?_cons, Option.mem_def, Option.some_inj] at hz
        rw [← hz]
        exact hasymm _ _ hlt
      | cons y' ys' =>
        rw [stInsert] at hz
        split at hz
        · rw [List.head?_cons, Option.mem_def, Option.some_inj] at hz
          rw [← hz]
          exact (List.chain'_cons.mp h).1
        · rw [List.head?_cons, Option.mem_def, Option.some_inj] at hz
          rw [← hz]
          exact hasymm _ _ hlt
    next hlt =>
      rw [SortedB, List.chain'_cons]
      constructor
      · simpa using hlt
      · exact h

theorem sortBy_sortedB {α : Type} (lt : α → α → Bool)
    (hasymm : ∀ a b, lt a b = true → lt b a = false) (l : List α) :
    SortedB lt (sortBy lt l) := by
  induction l with
  | nil => simp [sortBy, SortedB]
  | cons x xs ih => exact sortedB_stInsert lt hasymm x _ ih

theorem sortBy_eq_of_sortedB {α : Type} (lt : α → α → Bool) (l : List α)
    (h : SortedB lt l) : sortBy lt l = l := by
  induction l with
  | nil => rfl
  | cons x xs ih =>
    rw [sortBy, ih (List.Chain'.tail h)]
    cases xs with
    | nil => rfl
    | cons y ys =>
      rw [stInsert, if_neg]
      simpa using (List.chain'_cons.mp h).1

theorem filter_key_stInsert {α : Type} (lt : α → α → Bool) (key : α → Nat)
    (hkey : ∀ a b, lt a b = true → key a ≠ key b) (k : Nat) (x : α) (l : List α) :
    (stInsert lt x l).filter (fun t => key t == k) =
      if key x == k then x :: l.filter (fun t => key t == k)
      else l.filter (fun t => key t == k) := by
  induction l with
  | nil =>
    rw [stInsert]
    by_cases hxk : key x = k <;> simp [List.filter_cons, beq_iff_eq, hxk]
  | cons y ys ih =>
    rw [stInsert]
    split
    next hlt =>
      rw [List.filter_cons, ih]
      by_cases hxk : key x = k
      · have hyk : key y ≠ k := fun hy => hkey y x hlt (hy.trans hxk.symm)
        simp [List.filter_cons, beq_iff_eq, hxk, hyk]
      · by_cases hyk : key y = k <;>
          simp [List.filter_cons, beq_iff_eq, hxk, hyk]
    next hlt =>
      rw [List.filter_cons]

theorem filter_key_sortBy {α : Type} (lt : α → α → Bool) (key : α → Nat)
    (hkey : ∀ a b, lt a b = true → key a ≠ key b) (k : Nat) (l : List α) :
    (sortBy lt l).filter (fun t => key t == k) = l.filter (fun t => key t == k) := by
  induction l with
  | nil => rfl
  | cons x xs ih =>
    rw [sortBy, filter_key_stInsert lt key hkey k, ih, List.filter_cons]

theorem slotLt_asymm (r : Bool) (a b : Slot) (h : slotLt r a b = true) :
    slotLt r b a = false := by
  unfold slotLt at *
  cases r <;> simp at * <;> omega

theorem slotLt_key_ne (r : Bool) (a b : Slot) (h : slotLt r a b = true) :
    slotTimeKey a ≠ slotTimeKey b := by
  unfold slotLt at h
  cases r <;> simp at h <;> omega

/-! Deduplication counting for slot discovery, and the bridge from the
string-compared filter window to its numeric reading. -/

theorem countP_dedupByKey_seen (l : List Slot)
    (seen : List (List Char × List Char × List Char))
    (k : List Char × List Char × List Char) (h : k ∈ seen) :
    (dedupByKey l seen).countP (fun t => slotKey t == k) = 0 := by
  induction l generalizing seen with
  | nil => simp [dedupByKey]
  | cons t ts ih =>
    rw [dedupByKey]
    split
    next => exact ih seen h
    next hmem =>
      rw [List.countP_cons, ih (slotKey t :: seen) (List.mem_cons_of_mem _ h)]
      have hne : slotKey t ≠ k := by
        intro hk
        exact hmem (List.elem_iff.mpr (hk ▸ h))
      simp [hne]

theorem countP_dedupByKey_new (l : List Slot)
    (seen : List (List Char × List Char × List Char))
    (k : List Char × List Char × List Char) (h : k ∉ seen) :
    (dedupByKey l seen).countP (fun t => slotKey t == k) =
      min 1 (l.countP (fun t => slotKey t == k)) := by
  induction l generalizing seen with
  | nil => simp [dedupByKey]
  | cons t ts ih =>
    rw [dedupByKey]
    split
    next hmem =>
      have hne : slotKey t ≠ k := fun hk => h (hk ▸ List.elem_iff.mp hmem)
      rw [ih seen h, List.countP_cons]
      simp [hne]
    next hmem =>
      rw [List.countP_cons, List.countP_cons]
      by_cases hk : slotKey t = k
      · subst hk
        rw [countP_dedupByKey_seen ts (slotKey t :: seen) (slotKey t) (List.mem_cons_self _ _)]
        simp only [beq_self_eq_true, if_true]
        omega
      · have hk' : k ∉ slotKey t :: seen := by
          intro hik
          rcases List.mem_cons.mp hik with h1 | h2
          · exact hk h1.symm
          · exact h h2
        rw [ih (slotKey t :: seen) hk']
        simp [hk]

theorem mem_dedupByKey (l : List Slot)
    (seen : List (List Char × List Char × List Char)) :
    ∀ t ∈ dedupByKey l seen, t ∈ l := by
  induction l generalizing seen with
  | nil => simp [dedupByKey]
  | cons t ts ih =>
    rw [dedupByKey]
    intro x hx
    split at hx
    · exact List.mem_cons_of_mem _ (ih seen x hx)
    · rcases List.mem_cons.mp hx with h1 | h2
      · exact h1 ▸ List.mem_cons_self _ _
      · exact List.mem_cons_of_mem _ (ih _ x h2)

theorem keepSlot_fmt_iff (s e : List Char) (codes : List (List Char)) (t : Slot) :
    keepSlot (format_time_for_api s) (format_time_for_api e) codes t = true ↔
      digitsToNat (format_time_for_api s) ≤ slotTimeKey t ∧
      slotTimeKey t ≤ digitsToNat (format_time_for_api e) ∧
      t.cos ∈ codes := by
  obtain ⟨hsl, hsd⟩ := format_time_for_api_shape s
  obtain ⟨hel, hed⟩ := format_time_for_api_shape e
  obtain ⟨htl, htd⟩ := format_time_for_api_shape t.time
  rw [keepSlot, Bool.and_eq_true, Bool.and_eq_true]
  rw [charListLe_iff_digitsToNat_le _ _ (by rw [hsl, htl]) hsd htd]
  rw [charListLe_iff_digitsToNat_le _ _ (by rw [htl, hel]) htd hed]
  rw [List.elem_iff]
  rw [slotTimeKey]
  tauto

theorem slotLt_false_dir (r : Bool) (a b : Slot) (h : slotLt r b a = false) :
    if r then slotTimeKey b ≤ slotTimeKey a else slotTimeKey a ≤ slotTimeKey b := by
  unfold slotLt at h
  cases r <;> simp at h ⊢ <;> omega

/-- The example slots of the spec scenario: discovered tee times
07:10 on course A, 07:40 on course B, 08:50 on course A. -/
def slot0710A : Slot :=
  ⟨['0','7','1','0'], ['A'], ['1'], ['참','피','온','O','U','T'], ['6','1','1']⟩

def slot0740B : Slot :=
  ⟨['0','7','4','0'], ['B'], ['2'], ['참','피','온','I','N'], ['6','1','1']⟩

def slot0850A : Slot :=
  ⟨['0','8','5','0'], ['A'], ['1'], ['참','피','온','O','U','T'], ['6','1','1']⟩

/-- C4: `filter_and_sort_times` keeps a slot iff its time-of-day lies in
the inclusive `[startTime, endTime]` window and its course code belongs to
the requested group, sorts by the integer value of the formatted
time-of-day with direction given by the boolean flag, and on the spec's
example (window 07:00-09:00, group 참피온 = A/B, descending, slots
07:10(A), 07:40(B), 08:50(A)) returns [08:50(A), 07:40(B), 07:10(A)]. -/
theorem filter_and_sort_times_window_group_sorted :
    (∀ (all_times : List Slot) (s e g : List Char) (r : Bool) (t : Slot),
        t ∈ filter_and_sort_times all_times s e g r ↔
          t ∈ all_times ∧
          digitsToNat (format_time_for_api s) ≤ slotTimeKey t ∧
          slotTimeKey t ≤ digitsToNat (format_time_for_api e) ∧
          t.cos ∈ course_map g) ∧
    (∀ (all_times : List Slot) (s e g : List Char) (r : Bool),
        List.Chain'
          (fun a b => if r then slotTimeKey b ≤ slotTimeKey a
            else slotTimeKey a ≤ slotTimeKey b)
          (filter_and_sort_times all_times s e g r)) ∧
    filter_and_sort_times [slot0710A, slot0740B, slot0850A]
        ['0','7',':','0','0'] ['0','9',':','0','0'] ['참','피','온'] true =
      [slot0850A, slot0740B, slot0710A] := by
  refine ⟨?_, ?_, by decide⟩
  · intro all_times s e g r t
    rw [filter_and_sort_times, mem_sortBy, List.mem_filter, keepSlot_fmt_iff]
  · intro all_times s e g r
    exact List.Chain'.imp (fun a b h => slotLt_false_dir r a b h)
      (sortBy_sortedB _ (slotLt_asymm r) _)

/-- C7: merged discovery results are deduplicated by the key
(time-of-day, course, part): each key occurring anywhere in the
per-partition results occurs exactly once in the merged list (count
`min 1 (source count)`), and every returned slot comes from the input. -/
theorem get_all_available_times_dedup (partitionResults : List (List Slot))
    (k : List Char × List Char × List Char) :
    (get_all_available_times partitionResults).countP
        (fun t => slotKey t == k) =
      min 1 ((partitionResults.foldl (fun acc ts => acc ++ ts) []).countP
        (fun t => slotKey t == k)) ∧
    ∀ t ∈ get_all_available_times partitionResults,
      t ∈ partitionResults.foldl (fun acc ts => acc ++ ts) [] := by
  constructor
  · exact countP_dedupByKey_new _ _ k (by simp)
  · exact mem_dedupByKey _ _

/-- C8: `filter_and_sort_times` is idempotent (applying it to its own
output with the same window, group and direction returns the same list)
and stable (slots with equal integer time key appear in the output in
their input order: filtering the output to one key value equals filtering
the kept input to that key value). -/
theorem filter_and_sort_times_idempotent_stable :
    (∀ (A : List Slot) (s e g : List Char) (r : Bool),
        filter_and_sort_times (filter_and_sort_times A s e g r) s e g r =
          filter_and_sort_times A s e g r) ∧
    (∀ (A : List Slot) (s e g : List Char) (r : Bool) (k : Nat),
        (filter_and_sort_times A s e g r).filter
            (fun t => slotTimeKey t == k) =
          (A.filter (keepSlot (format_time_for_api s)
              (format_time_for_api e) (course_map g))).filter
            (fun t => slotTimeKey t == k)) := by
  constructor
  · intro A s e g r
    rw [filter_and_sort_times, filter_and_sort_times]
    rw [List.filter_eq_self.mpr]
    · exact sortBy_eq_of_sortedB _ _ (sortBy_sortedB _ (slotLt_asymm r) _)
    · intro a ha
      rw [mem_sortBy] at ha
      exact List.of_mem_filter ha
  · intro A s e g r k
    rw [filter_and_sort_times]
    exact filter_key_sortBy _ slotTimeKey (slotLt_key_ne r) k _

/-! The attempt sequencer: properties of the retry loop of
`try_reservation` and of the candidate walk of `run_api_booking`. -/

/-- Strict sequencing order on issued acquisition calls: a later call is
on a later candidate, or on the same candidate with a later attempt. -/
def callLt (p q : Nat × Nat) : Prop :=
  p.1 < q.1 ∨ (p.1 = q.1 ∧ p.2 < q.2)

theorem try_aux_step (f : Nat → ApiResp) (n att : Nat) :
    try_reservation_aux false f (n + 1) att =
      if isOkCode (f att) then (true, [att])
      else ((try_reservation_aux false f n (att + 1)).1,
            att :: (try_reservation_aux false f n (att + 1)).2) := by
  rw [try_reservation_aux]
  simp

theorem try_aux_bounds (f : Nat → ApiResp) :
    ∀ rem att, ∀ a ∈ (try_reservation_aux false f rem att).2,
      att ≤ a ∧ a < att + rem := by
  intro rem
  induction rem with
  | zero =>
    intro att a ha
    simp [try_reservation_aux] at ha
  | succ n ih =>
    intro att a ha
    rw [try_aux_step] at ha
    split at ha
    · simp at ha
      omega
    · rcases List.mem_cons.mp ha with h1 | h2
      · omega
      · have := ih (att + 1) a h2
        omega

theorem try_aux_chain (f : Nat → ApiResp) :
    ∀ rem att, List.Chain' (· < ·) (try_reservation_aux false f rem att).2 := by
  intro rem
  induction rem with
  | zero =>
    intro att
    simp [try_reservation_aux]
  | succ n ih =>
    intro att
    rw [try_aux_step]
    split
    · simp
    · rw [List.chain'_cons']
      refine ⟨?_, ih (att + 1)⟩
      intro y hy
      have hmem : y ∈ (try_reservation_aux false f n (att + 1)).2 :=
        List.mem_of_mem_head? hy
      have := try_aux_bounds f n (att + 1) y hmem
      omega

theorem try_aux_success_iff (f : Nat → ApiResp) :
    ∀ rem att, ((try_reservation_aux false f rem att).1 = true ↔
      ∃ a ∈ (try_reservation_aux false f rem att).2, isOkCode (f a) = true) := by
  intro rem
  induction rem with
  | zero =>
    intro att
    simp [try_reservation_aux]
  | succ n ih =>
    intro att
    rw [try_aux_step]
    split
    next hok =>
      simp [hok]
    next hok =>
      simp only [List.mem_cons]
      rw [ih (att + 1)]
      constructor
      · rintro ⟨a, ha, hoka⟩
        exact ⟨a, Or.inr ha, hoka⟩
      · rintro ⟨a, ha, hoka⟩
        rcases ha with h1 | h2
        · subst h1
          exact absurd hoka (by simpa using hok)
        · exact ⟨a, h2, hoka⟩

theorem try_aux_last (f : Nat → ApiResp) :
    ∀ rem att, ∀ a ∈ (try_reservation_aux false f rem att).2,
      isOkCode (f a) = true →
      (try_reservation_aux false f rem att).2.getLast? = some a := by
  intro rem
  induction rem with
  | zero =>
    intro att a ha
    simp [try_reservation_aux] at ha
  | succ n ih =>
    intro att a ha hok
    rw [try_aux_step] at ha ⊢
    split at ha
    next h =>
      simp at ha
      subst ha
      simp [h]
    next h =>
      rw [if_neg h]
      rcases List.mem_cons.mp ha with h1 | h2
      · subst h1
        exact absurd hok (by simpa using h)
      · have hlast := ih (att + 1) a h2 hok
        have hne : (try_reservation_aux false f n (att + 1)).2 ≠ [] := by
          intro hnil
          rw [hnil] at h2
          exact absurd h2 (List.not_mem_nil a)
        cases hcs : (try_reservation_aux false f n (att + 1)).2 with
        | nil => exact absurd hcs hne
        | cons b bs =>
          rw [hcs] at hlast
          rw [List.getLast?_cons_cons, hlast]

theorem try_res_fail3 (f : Nat → ApiResp)
    (h : ∀ a, a < 3 → isOkCode (f a) = false) :
    try_reservation false f = (false, [0, 1, 2]) := by
  rw [try_reservation, try_aux_step, if_neg (by simp [h 0 (by omega)]),
    try_aux_step, if_neg (by simp [h 1 (by omega)]),
    try_aux_step, if_neg (by simp [h 2 (by omega)])]
  rfl

theorem try_res_ok0 (f : Nat → ApiResp) (h : isOkCode (f 0) = true) :
    try_reservation false f = (true, [0]) := by
  rw [try_reservation, try_aux_step, if_pos h]


theorem ac_step (f : Nat → Nat → ApiResp) (c : Slot) (rest : List Slot) (i : Nat) :
    attempt_candidates false f (c :: rest) i =
      if (try_reservation false (f i)).1 then
        (true, (try_reservation false (f i)).2.map (fun a => (i, a)))
      else ((attempt_candidates false f rest (i + 1)).1,
            (try_reservation false (f i)).2.map (fun a => (i, a)) ++
              (attempt_candidates false f rest (i + 1)).2) := by
  rw [attempt_candidates]
  simp

theorem ac_bounds (f : Nat → Nat → ApiResp) :
    ∀ (cands : List Slot) (i : Nat),
      ∀ p ∈ (attempt_candidates false f cands i).2,
        i ≤ p.1 ∧ p.1 < i + cands.length ∧ p.2 < 3 := by
  intro cands
  induction cands with
  | nil =>
    intro i p hp
    simp [attempt_candidates] at hp
  | cons c rest ih =>
    intro i p hp
    rw [ac_step] at hp
    split at hp
    · simp only [List.mem_map] at hp
      obtain ⟨a, ha, hpa⟩ := hp
      have := try_aux_bounds (f i) 3 0 a ha
      subst hpa
      simp
      omega
    · simp only [List.mem_append, List.mem_map] at hp
      rcases hp with ⟨a, ha, hpa⟩ | h2
      · have := try_aux_bounds (f i) 3 0 a ha
        subst hpa
        simp
        omega
      · have := ih (i + 1) p h2
        simp at this ⊢
        omega

theorem ac_chain (f : Nat → Nat → ApiResp) :
    ∀ (cands : List Slot) (i : Nat),
      List.Chain' callLt (attempt_candidates false f cands i).2 := by
  intro cands
  induction cands with
  | nil =>
    intro i
    simp [attempt_candidates]
  | cons c rest ih =>
    intro i
    have htag : List.Chain' callLt
        ((try_reservation false (f i)).2.map (fun a => (i, a))) := by
      rw [List.chain'_map]
      refine List.Chain'.imp ?_ (try_aux_chain (f i) 3 0)
      intro a b hab
      exact Or.inr ⟨rfl, hab⟩
    rw [ac_step]
    split
    · exact htag
    · rw [List.chain'_append]
      refine ⟨htag, ih (i + 1), ?_⟩
      intro x hx y hy
      have hxmem : x ∈ (try_reservation false (f i)).2.map (fun a => (i, a)) :=
        List.mem_of_mem_getLast? hx
      have hymem : y ∈ (attempt_candidates false f rest (i + 1)).2 :=
        List.mem_of_mem_head? hy
      obtain ⟨a, _, hax⟩ := List.mem_map.mp hxmem
      have hyb := ac_bounds f rest (i + 1) y hymem
      left
      rw [← hax]
      simp
      omega

theorem ac_success_iff (f : Nat → Nat → ApiResp) :
    ∀ (cands : List Slot) (i : Nat),
      ((attempt_candidates false f cands i).1 = true ↔
        ∃ p ∈ (attempt_candidates false f cands i).2,
          isOkCode (f p.1 p.2) = true) := by
  intro cands
  induction cands with
  | nil =>
    intro i
    simp [attempt_candidates]
  | cons c rest ih =>
    intro i
    rw [ac_step]
    split
    next hok =>
      constructor
      · intro _
        obtain ⟨a, ha, hoka⟩ := (try_aux_success_iff (f i) 3 0).mp hok
        exact ⟨(i, a), List.mem_map.mpr ⟨a, ha, rfl⟩, hoka⟩
      · intro _
        rfl
    next hok =>
      rw [ih (i + 1)]
      constructor
      · rintro ⟨p, hp, hokp⟩
        exact ⟨p, List.mem_append_right _ hp, hokp⟩
      · rintro ⟨p, hp, hokp⟩
        rcases List.mem_append.mp hp with h1 | h2
        · obtain ⟨a, ha, hpa⟩ := List.mem_map.mp h1
          exfalso
          apply hok
          refine (try_aux_success_iff (f i) 3 0).mpr ⟨a, ha, ?_⟩
          rw [← hpa] at hokp
          exact hokp
        · exact ⟨p, h2, hokp⟩

theorem ac_last (f : Nat → Nat → ApiResp) :
    ∀ (cands : List Slot) (i : Nat),
      ∀ p ∈ (attempt_candidates false f cands i).2,
        isOkCode (f p.1 p.2) = true →
        (attempt_candidates false f cands i).2.getLast? = some p := by
  intro cands
  induction cands with
  | nil =>
    intro i p hp
    simp [attempt_candidates] at hp
  | cons c rest ih =>
    intro i p hp hok
    rw [ac_step] at hp ⊢
    split at hp
    next h =>
      rw [if_pos h]
      obtain ⟨a, ha, hpa⟩ := List.mem_map.mp hp
      have hoka : isOkCode ((f i) a) = true := by
        rw [← hpa] at hok
        exact hok
      have hlast : (try_reservation false (f i)).2.getLast? = some a :=
        try_aux_last (f i) 3 0 a ha hoka
      dsimp only
      rw [List.getLast?_map, hlast]
      simp [← hpa]
    next h =>
      rw [if_neg h]
      rcases List.mem_append.mp hp with h1 | h2
      · obtain ⟨a, ha, hpa⟩ := List.mem_map.mp h1
        exfalso
        apply h
        refine (try_aux_success_iff (f i) 3 0).mpr ⟨a, ha, ?_⟩
        rw [← hpa] at hok
        exact hok
      · have hlast := ih (i + 1) p h2 hok
        dsimp only
        rw [List.getLast?_append, hlast]
        rfl

theorem ac_scenario (f : Nat → Nat → ApiResp) (c d : Slot) (rest : List Slot)
    (h0 : ∀ a, isOkCode (f 0 a) = false) (h1 : isOkCode (f 1 0) = true) :
    attempt_candidates false f (c :: d :: rest) 0 =
      (true, [(0, 0), (0, 1), (0, 2), (1, 0)]) := by
  rw [ac_step, try_res_fail3 (f 0) (fun a _ => h0 a), if_neg (by simp),
    ac_step, try_res_ok0 (f 1) h1, if_pos rfl]
  rfl

theorem ac_all_fail (f : Nat → Nat → ApiResp) (cands : List Slot) (i : Nat)
    (h : ∀ j a, isOkCode (f j a) = false) :
    (attempt_candidates false f cands i).1 = false := by
  rw [← Bool.not_eq_true]
  intro htrue
  obtain ⟨p, _, hokp⟩ := (ac_success_iff f cands i).mp htrue
  rw [h p.1 p.2] at hokp
  cases hokp


theorem run_nonTest (f : Nat → Nat → ApiResp) (l : List Slot) (h : l ≠ []) :
    run_api_booking false false f l = attempt_candidates false f (l.take 5) 0 := by
  cases l with
  | nil => exact absurd rfl h
  | cons x xs => simp [run_api_booking]

/-- C2: in non-test mode on a non-empty candidate list, every acquisition
request targets one of the first `min 5 (length)` candidates with at most
3 attempts each, requests are issued in strictly increasing
(candidate, attempt) order, the run succeeds exactly when some issued
request is confirmed with `resultCode '0000'`, a confirmed request is
always the last one issued (stop on first success), the spec's scenario
S1 all-fail / S2 first-attempt-success issues exactly the calls
(0,0),(0,1),(0,2),(1,0) and succeeds, and if no request is ever confirmed
the run returns the exhausted failure. -/
theorem run_api_booking_sequencer_spec (l : List Slot)
    (f : Nat → Nat → ApiResp) (hne : l ≠ []) :
    (∀ p ∈ (run_api_booking false false f l).2,
        p.1 < min 5 l.length ∧ p.2 < 3) ∧
    List.Chain' callLt (run_api_booking false false f l).2 ∧
    ((run_api_booking false false f l).1 = true ↔
      ∃ p ∈ (run_api_booking false false f l).2,
        isOkCode (f p.1 p.2) = true) ∧
    (∀ p ∈ (run_api_booking false false f l).2,
        isOkCode (f p.1 p.2) = true →
        (run_api_booking false false f l).2.getLast? = some p) ∧
    ((∀ a, isOkCode (f 0 a) = false) → isOkCode (f 1 0) = true →
      2 ≤ l.length →
      run_api_booking false false f l =
        (true, [(0, 0), (0, 1), (0, 2), (1, 0)])) ∧
    ((∀ i a, isOkCode (f i a) = false) →
      (run_api_booking false false f l).1 = false) := by
  rw [run_nonTest f l hne]
  refine ⟨?_, ac_chain f _ 0, ac_success_iff f _ 0, ac_last f _ 0, ?_,
    fun h => ac_all_fail f _ 0 h⟩
  · intro p hp
    have := ac_bounds f (l.take 5) 0 p hp
    rw [List.length_take] at this
    omega
  · intro h0 h1 hlen
    obtain ⟨c, d, rest, rfl⟩ : ∃ c d rest, l = c :: d :: rest := by
      cases l with
      | nil => exact absurd hlen (by simp)
      | cons c t =>
        cases t with
        | nil => exact absurd hlen (by simp)
        | cons d rest => exact ⟨c, d, rest, rfl⟩
    rw [show (c :: d :: rest).take 5 = c :: d :: rest.take 3 from rfl]
    exact ac_scenario f c d _ h0 h1

/-- Candidate slots used to instantiate the sequencing theorems. -/
def wSlotA : Slot :=
  ⟨['0','9','0','0'], ['C'], ['1'], ['마','스','타','O','U','T'], ['6','1','1']⟩

def wSlotB : Slot :=
  ⟨['0','9','1','0'], ['D'], ['2'], ['마','스','타','I','N'], ['6','1','1']⟩

/-- Remote oracle: candidate 0 always times out, every other candidate is
confirmed immediately. -/
def exResp : Nat → Nat → ApiResp :=
  fun i _ => if i == 0 then .netError else .ok ['0', '0', '0', '0']

theorem run_api_booking_sequencer_spec_witness :
    run_api_booking false false exResp [wSlotA, wSlotB] =
      (true, [(0, 0), (0, 1), (0, 2), (1, 0)]) :=
  (run_api_booking_sequencer_spec [wSlotA, wSlotB] exResp
    (by decide)).2.2.2.2.1 (fun a => rfl) rfl (by decide)

/-- C3: with `test_mode` set and a non-empty candidate list,
`run_api_booking` succeeds immediately and issues zero acquisition
requests — `try_reservation` is never invoked. -/
theorem run_api_booking_test_mode_no_calls (stop : Bool)
    (f : Nat → Nat → ApiResp) (l : List Slot) (h : l ≠ []) :
    run_api_booking stop true f l = (true, []) := by
  cases l with
  | nil => exact absurd rfl h
  | cons x xs => simp [run_api_booking]

theorem run_api_booking_test_mode_no_calls_witness :
    run_api_booking false true exResp [wSlotA] = (true, []) :=
  run_api_booking_test_mode_no_calls false exResp [wSlotA] (by decide)

/-- C9: on an empty candidate list `run_api_booking` fails with zero
acquisition requests, even in test mode — the emptiness check precedes
the test-mode short-circuit. -/
theorem run_api_booking_empty_list_fails (stop test_mode : Bool)
    (f : Nat → Nat → ApiResp) :
    run_api_booking stop test_mode f [] = (false, []) := rfl

/-! The clock gate: exit behaviour of the `wait_until` loop. -/

theorem wait_until_aux_step (stop : Nat → Bool) (nowAt : Nat → ℚ) (target : ℚ)
    (fuel n sleeps : Nat) :
    wait_until_aux stop nowAt target (fuel + 1) n sleeps =
      if stop n then some (.stopped n sleeps)
      else if target - nowAt n ≤ 1 / 1000 then some (.reached n sleeps)
      else wait_until_aux stop nowAt target fuel (n + 1) (sleeps + 1) := by
  rw [wait_until_aux]

theorem wait_until_aux_reached_iff (stop : Nat → Bool) (nowAt : Nat → ℚ)
    (target : ℚ) (hstop : ∀ n, stop n = false) :
    ∀ (fuel n0 s0 n s : Nat),
      wait_until_aux stop nowAt target fuel n0 s0 = some (.reached n s) →
      target - nowAt n ≤ 1 / 1000 ∧
      (∀ m, n0 ≤ m → m < n → 1 / 1000 < target - nowAt m) ∧
      n0 ≤ n ∧ s = s0 + (n - n0) := by
  intro fuel
  induction fuel with
  | zero =>
    intro n0 s0 n s h
    simp [wait_until_aux] at h
  | succ f ih =>
    intro n0 s0 n s h
    rw [wait_until_aux_step, hstop n0, if_neg (by simp)] at h
    by_cases he : target - nowAt n0 ≤ 1 / 1000
    · rw [if_pos he] at h
      rw [Option.some_inj] at h
      cases h
      exact ⟨he, fun m hm1 hm2 => absurd (lt_of_le_of_lt hm1 hm2) (by omega), by omega, by omega⟩
    · rw [if_neg he] at h
      obtain ⟨h1, h2, h3, h4⟩ := ih (n0 + 1) (s0 + 1) n s h
      refine ⟨h1, ?_, by omega, by omega⟩
      intro m hm1 hm2
      rcases Nat.eq_or_lt_of_le hm1 with hm | hm
      · rw [← hm]
        exact lt_of_not_le he
      · exact h2 m (by omega) hm2

theorem wait_until_aux_reaches (stop : Nat → Bool) (nowAt : Nat → ℚ)
    (target : ℚ) (hstop : ∀ n, stop n = false) :
    ∀ (fuel n0 s0 n : Nat), n0 ≤ n →
      (∀ m, n0 ≤ m → m < n → 1 / 1000 < target - nowAt m) →
      target - nowAt n ≤ 1 / 1000 → n < n0 + fuel →
      wait_until_aux stop nowAt target fuel n0 s0 =
        some (.reached n (s0 + (n - n0))) := by
  intro fuel
  induction fuel with
  | zero =>
    intro n0 s0 n h1 _ _ h4
    omega
  | succ f ih =>
    intro n0 s0 n h1 hall hn h4
    rw [wait_until_aux_step, hstop n0, if_neg (by simp)]
    rcases Nat.eq_or_lt_of_le h1 with heq | hlt
    · rw [heq, if_pos hn, ← heq]
      simp
    · rw [if_neg (not_le.mpr (hall n0 (le_refl n0) hlt))]
      rw [ih (n0 + 1) (s0 + 1) n (by omega)
        (fun m hm1 hm2 => hall m (by omega) hm2) hn (by omega)]
      have : s0 + 1 + (n - (n0 + 1)) = s0 + (n - n0) := by omega
      rw [this]

/-- C6: under no cancellation, `wait_until` exits the loop exactly at the
first iteration whose freshly recomputed remaining duration
(`target - now`) is at most the 1 ms epsilon — in particular a remaining
duration that is positive but at most 1 ms still exits, so `remaining ≤ 0`
is not required — and when the target is already past on entry (remaining
≤ epsilon at iteration 0) it returns reached immediately with zero sleeps
executed. -/
theorem wait_until_epsilon_exit (stop : Nat → Bool) (nowAt : Nat → ℚ)
    (target : ℚ) (fuel : Nat) (hstop : ∀ n, stop n = false) :
    (target - nowAt 0 ≤ 1 / 1000 → 0 < fuel →
      wait_until stop nowAt target fuel = some (.reached 0 0)) ∧
    (∀ n s, wait_until stop nowAt target fuel = some (.reached n s) →
      target - nowAt n ≤ 1 / 1000 ∧
      (∀ m, m < n → 1 / 1000 < target - nowAt m) ∧ s = n) ∧
    (∀ n, (∀ m, m < n → 1 / 1000 < target - nowAt m) →
      target - nowAt n ≤ 1 / 1000 → n < fuel →
      wait_until stop nowAt target fuel = some (.reached n n)) := by
  refine ⟨?_, ?_, ?_⟩
  · intro h0 hf
    rw [wait_until]
    have := wait_until_aux_reaches stop nowAt target hstop fuel 0 0 0
      (le_refl 0) (fun m hm1 hm2 => by omega) h0 (by omega)
    simpa using this
  · intro n s h
    obtain ⟨h1, h2, _, h4⟩ :=
      wait_until_aux_reached_iff stop nowAt target hstop fuel 0 0 n s h
    exact ⟨h1, fun m hm => h2 m (by omega) hm, by omega⟩
  · intro n hall hn hf
    rw [wait_until]
    have := wait_until_aux_reaches stop nowAt target hstop fuel 0 0 n
      (by omega) (fun m hm1 hm2 => hall m hm2) hn (by omega)
    simpa using this

theorem wait_until_epsilon_exit_witness :
    (0 : ℚ) < 1 - (1 - 1 / 2000 + (0 : Nat)) ∧
    wait_until (fun _ => false) (fun n => 1 - 1 / 2000 + (n : ℚ)) 1 1 =
      some (.reached 0 0) := by
  constructor
  · norm_num
  · exact (wait_until_epsilon_exit (fun _ => false)
      (fun n => 1 - 1 / 2000 + (n : ℚ)) 1 1 (fun _ => rfl)).1
      (by norm_num) (by norm_num)

/-! The open-signal detector: timeout behaviour of `wait_for_open_signal`. -/

theorem wfos_step (stop : Nat → Bool) (elapsedAt : Nat → ℚ)
    (check : Nat → CheckOutcome) (fuel n : Nat) :
    wait_for_open_signal_aux stop elapsedAt check (fuel + 1) n =
      if stop n then some (false, n)
      else if MAX_WAIT_SECONDS < elapsedAt n then some (false, n)
      else
        match check n with
        | .opened => some (true, n)
        | .closed => wait_for_open_signal_aux stop elapsedAt check fuel (n + 1)
        | .error => wait_for_open_signal_aux stop elapsedAt check fuel (n + 1) := by
  rw [wait_for_open_signal_aux]

theorem wfos_only_timeout (stop : Nat → Bool) (elapsedAt : Nat → ℚ)
    (check : Nat → CheckOutcome) (hstop : ∀ n, stop n = false)
    (hno : ∀ n, check n ≠ CheckOutcome.opened) :
    ∀ (fuel n0 : Nat) (b : Bool) (n : Nat),
      wait_for_open_signal_aux stop elapsedAt check fuel n0 = some (b, n) →
      b = false ∧ MAX_WAIT_SECONDS < elapsedAt n := by
  intro fuel
  induction fuel with
  | zero =>
    intro n0 b n h
    simp [wait_for_open_signal_aux] at h
  | succ f ih =>
    intro n0 b n h
    rw [wfos_step, hstop n0, if_neg (by simp)] at h
    by_cases he : MAX_WAIT_SECONDS < elapsedAt n0
    · rw [if_pos he, Option.some_inj] at h
      cases h
      exact ⟨rfl, he⟩
    · rw [if_neg he] at h
      cases hc : check n0 with
      | opened => exact absurd hc (hno n0)
      | closed =>
        rw [hc] at h
        exact ih (n0 + 1) b n h
      | error =>
        rw [hc] at h
        exact ih (n0 + 1) b n h

theorem wfos_reaches_timeout (stop : Nat → Bool) (elapsedAt : Nat → ℚ)
    (check : Nat → CheckOutcome) (hstop : ∀ n, stop n = false)
    (hno : ∀ n, check n ≠ CheckOutcome.opened) :
    ∀ (fuel n0 m : Nat), n0 ≤ m → m < n0 + fuel →
      MAX_WAIT_SECONDS < elapsedAt m →
      ∃ n, n0 ≤ n ∧ n ≤ m ∧
        wait_for_open_signal_aux stop elapsedAt check fuel n0 = some (false, n) ∧
        MAX_WAIT_SECONDS < elapsedAt n := by
  intro fuel
  induction fuel with
  | zero =>
    intro n0 m h1 h2
    omega
  | succ f ih =>
    intro n0 m h1 h2 hm
    rw [wfos_step, hstop n0, if_neg (by simp)]
    by_cases he : MAX_WAIT_SECONDS < elapsedAt n0
    · exact ⟨n0, le_refl n0, h1, by rw [if_pos he], he⟩
    · have hne : n0 ≠ m := fun h => he (h ▸ hm)
      rw [if_neg he]
      obtain ⟨n, hn1, hn2, hn3, hn4⟩ := ih (n0 + 1) m (by omega) (by omega) hm
      refine ⟨n, by omega, hn2, ?_, hn4⟩
      cases hc : check n0 with
      | opened => exact absurd hc (hno n0)
      | closed => exact hn3
      | error => exact hn3

theorem wfos_error_as_closed (stop : Nat → Bool) (elapsedAt : Nat → ℚ)
    (check : Nat → CheckOutcome) :
    ∀ (fuel n : Nat),
      wait_for_open_signal_aux stop elapsedAt check fuel n =
        wait_for_open_signal_aux stop elapsedAt
          (fun i => errorAsClosed (check i)) fuel n := by
  intro fuel
  induction fuel with
  | zero =>
    intro n
    rfl
  | succ f ih =>
    intro n
    rw [wfos_step, wfos_step]
    by_cases hs : stop n
    · rw [if_pos hs, if_pos hs]
    · rw [if_neg hs, if_neg hs]
      by_cases he : MAX_WAIT_SECONDS < elapsedAt n
      · rw [if_pos he, if_pos he]
      · rw [if_neg he, if_neg he]
        cases hc : check n <;> simp [hc, errorAsClosed, ih (n + 1)]

/-- C5: with no cancellation and an open signal that never comes,
`wait_for_open_signal` can only return the timed-out failure, and only at
an iteration whose elapsed time strictly exceeds the 420-second maximum —
never before 420 s; given enough fuel to reach an instant past 420 s it
does return that failure; and an iteration on which the calendar query
raises is handled exactly like a "not yet open" answer — the loop
continues identically. -/
theorem wait_for_open_signal_timeout_spec (stop : Nat → Bool)
    (elapsedAt : Nat → ℚ) (check : Nat → CheckOutcome) (fuel m : Nat)
    (hstop : ∀ n, stop n = false)
    (hno : ∀ n, check n ≠ CheckOutcome.opened)
    (hm : MAX_WAIT_SECONDS < elapsedAt m) (hfuel : m < fuel) :
    (∀ (b : Bool) (n : Nat),
      wait_for_open_signal stop elapsedAt check fuel = some (b, n) →
        b = false ∧ MAX_WAIT_SECONDS < elapsedAt n) ∧
    (∃ n, n ≤ m ∧
      wait_for_open_signal stop elapsedAt check fuel = some (false, n) ∧
      MAX_WAIT_SECONDS < elapsedAt n) ∧
    (∀ (check2 : Nat → CheckOutcome) (fuel2 n2 : Nat),
      wait_for_open_signal_aux stop elapsedAt check2 fuel2 n2 =
        wait_for_open_signal_aux stop elapsedAt
          (fun i => errorAsClosed (check2 i)) fuel2 n2) := by
  refine ⟨?_, ?_, fun check2 fuel2 n2 =>
    wfos_error_as_closed stop elapsedAt check2 fuel2 n2⟩
  · intro b n h
    exact wfos_only_timeout stop elapsedAt check hstop hno fuel 0 b n h
  · obtain ⟨n, _, hn2, hn3, hn4⟩ :=
      wfos_reaches_timeout stop elapsedAt check hstop hno fuel 0 m
        (by omega) (by omega) hm
    exact ⟨n, hn2, hn3, hn4⟩

theorem wait_for_open_signal_timeout_spec_witness :
    ∃ n, n ≤ 5 ∧
      wait_for_open_signal (fun _ => false) (fun i => 100 * (i : ℚ))
        (fun _ => CheckOutcome.error) 6 = some (false, n) ∧
      MAX_WAIT_SECONDS < 100 * (n : ℚ) :=
  (wait_for_open_signal_timeout_spec (fun _ => false)
    (fun i => 100 * (i : ℚ)) (fun _ => CheckOutcome.error) 6 5
    (fun _ => rfl) (fun _ h => CheckOutcome.noConfusion h)
    (by norm_num [MAX_WAIT_SECONDS]) (by omega)).2.1

/-! Totality of the time formatter, and the orchestration order of
`start_pre_process` around an empty filtered candidate list. -/

/-- C10: `format_time_for_api` is total with a silent fallback: after
stripping whitespace and deleting colons, a 4-digit string passes through,
a 3-digit string gains a leading zero, and every other input collapses to
"0000"; the output is always a 4-digit string, and a malformed window
bound given to `filter_and_sort_times` therefore behaves exactly like
"00:00". -/
theorem format_time_for_api_total_fallback (s : List Char) :
    ((format_time_for_api s).length = 4 ∧
      (format_time_for_api s).all Char.isDigit = true) ∧
    ((prepTime s).all Char.isDigit = true → (prepTime s).length = 4 →
      format_time_for_api s = prepTime s) ∧
    ((prepTime s).all Char.isDigit = true → (prepTime s).length = 3 →
      format_time_for_api s = '0' :: prepTime s) ∧
    (¬((prepTime s).all Char.isDigit = true ∧
        ((prepTime s).length = 3 ∨ (prepTime s).length = 4)) →
      format_time_for_api s = ['0', '0', '0', '0'] ∧
      ∀ (A : List Slot) (e g : List Char) (r : Bool),
        filter_and_sort_times A s e g r =
          filter_and_sort_times A ['0', '0', ':', '0', '0'] e g r) := by
  refine ⟨format_time_for_api_shape s, ?_, ?_, ?_⟩
  · intro hd h4
    rw [format_time_for_api, if_pos (by simp [hd, h4]), if_pos h4]
  · intro hd h3
    rw [format_time_for_api, if_pos (by simp [hd, h3]), if_neg (by omega)]
  · intro h
    have h0 : format_time_for_api s = ['0', '0', '0', '0'] := by
      rw [format_time_for_api, if_neg]
      intro hc
      simp only [Bool.and_eq_true, Bool.or_eq_true, decide_eq_true_eq] at hc
      exact h hc
    refine ⟨h0, ?_⟩
    intro A e g r
    have h1 : format_time_for_api ['0', '0', ':', '0', '0'] =
        ['0', '0', '0', '0'] := by decide
    rw [filter_and_sort_times, filter_and_sort_times, h0, h1]

theorem format_time_for_api_total_fallback_witness :
    format_time_for_api ['7', ':', '5'] = ['0', '0', '0', '0'] ∧
    format_time_for_api [' ', '8', '3', '0'] = ['0', '8', '3', '0'] ∧
    format_time_for_api ['1', '2', ':', '3', '4'] = ['1', '2', '3', '4'] :=
  ⟨((format_time_for_api_total_fallback (['7', ':', '5'])).2.2.2
      (by decide)).1,
   ((format_time_for_api_total_fallback ([' ', '8', '3', '0'])).2.2.1
      (by decide) (by decide)).trans (by decide),
   ((format_time_for_api_total_fallback (['1', '2', ':', '3', '4'])).2.1
      (by decide) (by decide)).trans (by decide)⟩

/-- C1 is false on the code: here is a run whose filtered candidate list
is empty and which nevertheless invokes `wait_for_open_signal` — the
source checks candidate emptiness only inside `run_api_booking`, after
the open-signal watch, so the watch is entered regardless. -/
theorem empty_filter_claim_counterexample :
    filter_and_sort_times [] ['0', '7', ':', '0', '0'] ['0', '9', ':', '0', '0']
        ['A', 'l', 'l'] true = [] ∧
    (start_pre_process true false [] ['0', '7', ':', '0', '0']
        ['0', '9', ':', '0', '0'] ['A', 'l', 'l'] true true true
        exResp).watchedSignal = true := by
  decide

/-- C1 (amended): after a successful login with no stop requested, a run
whose filtered candidate list is empty still enters the open-signal
watch; it issues no acquisition request, and if the open signal is
detected the run ends with the `run_api_booking` "no candidates" failure
(only then is the empty list noticed). -/
theorem start_pre_process_empty_filter_watches (loginOk stop : Bool)
    (all_times : List Slot) (s e g : List Char) (r tm osig : Bool)
    (f : Nat → Nat → ApiResp)
    (hlogin : loginOk = true) (hstop : stop = false)
    (hempty : filter_and_sort_times all_times s e g r = []) :
    (start_pre_process loginOk stop all_times s e g r tm osig
        f).watchedSignal = true ∧
    (start_pre_process loginOk stop all_times s e g r tm osig
        f).acquisitionCalls = [] ∧
    (osig = true →
      (start_pre_process loginOk stop all_times s e g r tm osig f).outcome =
        Outcome.bookingResult false) := by
  subst hlogin
  subst hstop
  simp only [start_pre_process]
  rw [hempty]
  cases osig <;> simp [run_api_booking]

theorem start_pre_process_empty_filter_watches_witness :
    (start_pre_process true false [] ['0', '6', ':', '0', '0']
        ['0', '9', ':', '0', '0'] ['마', '스', '타'] false true true
        exResp).watchedSignal = true ∧
    (start_pre_process true false [] ['0', '6', ':', '0', '0']
        ['0', '9', ':', '0', '0'] ['마', '스', '타'] false true true
        exResp).acquisitionCalls = [] ∧
    (true = true →
      (start_pre_process true false [] ['0', '6', ':', '0', '0']
          ['0', '9', ':', '0', '0'] ['마', '스', '타'] false true true
          exResp).outcome = Outcome.bookingResult false) :=
  start_pre_process_empty_filter_watches true false [] _ _ _ false true true
    exResp rfl rfl (by decide)

end GoldCC
